import Mathlib

/-!
Verification development for a CrowdBT scoring module (`crowdbt.py`).

The module estimates Bradley-Terry scores for objects from crowdsourced
pairwise preferences.  The embedding below follows the source closely:

* `bt` is the inner helper `bt(s_i, s_j) = exp(s_i) / (exp(s_i) + exp(s_j))`.
* `negative_log_likelihood` is the objective closure built inside
  `estimate_bt_scores`; the likelihood part iterates over every edge of
  every annotator graph, the regularization part over `range(len(s))`,
  with the constant `s_vo = 1.0` playing the role of the virtual anchor.
* Python list indexing (which accepts negative positions by wrapping
  around) is modelled by `pyIdx`/`sAt`; the set of positions for which
  Python raises `IndexError` is captured by `idxOK`.
* `num_vertices` models `1 + max(max(i, j) for edges in graphs for j, i
  in edges)`; the `ValueError` that Python's `max` raises on an empty
  generator is modelled by returning `none`.
* The scipy optimizer is an opaque parameter `minimize`; scipy returns a
  vector of the same length as the initial guess, which theorems assume
  explicitly where needed.  A crash inside the optimizer caused by an
  out-of-range edge index (Python `IndexError` during the very first
  objective evaluation) is modelled by the `validEdges` guard returning
  `none`.
* `bt_ranks_of` models `np.add((-bt_scores).argsort().argsort(), 1)`,
  with `argsort` modelled as the stable sort of index lists (ties broken
  by ascending position).  numpy's default argsort kind is documented as
  not stable, so this model fixes a tie order the library leaves
  unspecified; only properties that hold for every correct sorting
  permutation regardless of tie order are read off it.
* `zscore` models `scipy.stats.zscore` with its default population
  convention (ddof = 0).
-/

namespace CrowdBT

/-! ### Generic argsort machinery (computable part of the model) -/

/-- Comparator used to model `argsort` on a key function: sort positions by
key, breaking ties by ascending position (stable order). -/
def keyOrd {α : Type} [LinearOrder α] (key : ℕ → α) (a b : ℕ) : Prop :=
  key a < key b ∨ (key a = key b ∧ a ≤ b)

/-- Strict version of `keyOrd`: position `a` comes strictly before `b`. -/
def strictBelow {α : Type} [LinearOrder α] (key : ℕ → α) (a b : ℕ) : Prop :=
  key a < key b ∨ (key a = key b ∧ a < b)

instance {α : Type} [LinearOrder α] (key : ℕ → α) : DecidableRel (keyOrd key) :=
  fun a b => by unfold keyOrd; infer_instance

instance {α : Type} [LinearOrder α] (key : ℕ → α) : DecidableRel (strictBelow key) :=
  fun a b => by unfold strictBelow; infer_instance

instance {α : Type} [LinearOrder α] (key : ℕ → α) : IsTotal ℕ (keyOrd key) := by
  constructor
  intro a b
  rcases lt_trichotomy (key a) (key b) with h | h | h
  · exact Or.inl (Or.inl h)
  · rcases le_total a b with hab | hab
    · exact Or.inl (Or.inr ⟨h, hab⟩)
    · exact Or.inr (Or.inr ⟨h.symm, hab⟩)
  · exact Or.inr (Or.inl h)

instance {α : Type} [LinearOrder α] (key : ℕ → α) : IsTrans ℕ (keyOrd key) := by
  constructor
  intro a b c hab hbc
  rcases hab with h1 | ⟨h1, h1'⟩ <;> rcases hbc with h2 | ⟨h2, h2'⟩
  · exact Or.inl (h1.trans h2)
  · exact Or.inl (h2 ▸ h1)
  · exact Or.inl (h1 ▸ h2)
  · exact Or.inr ⟨h1.trans h2, h1'.trans h2'⟩

instance {α : Type} [LinearOrder α] (key : ℕ → α) : IsAntisymm ℕ (keyOrd key) := by
  constructor
  intro a b hab hba
  rcases hab with h1 | ⟨h1, h1'⟩ <;> rcases hba with h2 | ⟨h2, h2'⟩
  · exact absurd (h1.trans h2) (lt_irrefl _)
  · exact absurd (h2 ▸ h1) (lt_irrefl _)
  · exact absurd (h1 ▸ h2) (lt_irrefl _)
  · exact le_antisymm h1' h2'

/-- Model of `numpy.argsort`: the list of positions of `l`, sorted by the
value found at each position (ties by ascending position).  `d` is a
dummy default used only to read values (never hit at sorted positions). -/
def argsort {α : Type} [LinearOrder α] (d : α) (l : List α) : List ℕ :=
  List.insertionSort (keyOrd fun i => l.getD i d) (List.range l.length)

/-- Number of positions that sort strictly before position `i` among the
first `n` positions; this is where a stable descending-value argsort
places an element. -/
def rankCnt {α : Type} [LinearOrder α] (key : ℕ → α) (n i : ℕ) : ℕ :=
  ((Finset.range n).filter (fun j => strictBelow key j i)).card

/-! ### The CrowdBT model (shallow embedding of `crowdbt.py`) -/

noncomputable section

/-- Source `bt(s_i, s_j) = math.exp(s_i) / (math.exp(s_i) + math.exp(s_j))`. -/
def bt (s_i s_j : ℝ) : ℝ := Real.exp s_i / (Real.exp s_i + Real.exp s_j)

/-- Python list index resolution: a negative index `i` means `len + i`. -/
def pyIdx (n : ℕ) (i : ℤ) : ℕ := (if i < 0 then (n : ℤ) + i else i).toNat

/-- The set of indices `i` for which Python `s[i]` does NOT raise
`IndexError` on a list of length `n`. -/
def idxOK (n : ℕ) (i : ℤ) : Prop := -(n : ℤ) ≤ i ∧ i < (n : ℤ)

instance (n : ℕ) (i : ℤ) : Decidable (idxOK n i) := by unfold idxOK; infer_instance

/-- Python `s[i]` (meaningful whenever `idxOK s.length i`). -/
def sAt (s : List ℝ) (i : ℤ) : ℝ := s.getD (pyIdx s.length i) 0

/-- Likelihood contribution of one edge `(j, i)`:
`log10(h * bt(s[i], s[j]) + (1 - h) * bt(s[j], s[i]))`. -/
def edgeTerm (h : ℝ) (s : List ℝ) (e : ℤ × ℤ) : ℝ :=
  Real.logb 10 (h * bt (sAt s e.2) (sAt s e.1) + (1 - h) * bt (sAt s e.1) (sAt s e.2))

/-- The log-likelihood `L`, summed over every edge of every graph. -/
def logLikelihood (graphs : List (Finset (ℤ × ℤ))) (h : ℝ) (s : List ℝ) : ℝ :=
  (graphs.map (fun g => g.sum (edgeTerm h s))).sum

/-- Per-object regularization contribution
`log10(bt(s_vo, s[i])) + log10(bt(s[i], s_vo))` with `s_vo = 1.0`. -/
def regTerm (x : ℝ) : ℝ := Real.logb 10 (bt 1 x) + Real.logb 10 (bt x 1)

/-- The regularization term `R`, summed over `range(len(s))`. -/
def regularization (s : List ℝ) : ℝ :=
  ((List.range s.length).map (fun i => regTerm (s.getD i 0))).sum

/-- Source `negative_log_likelihood(s) = -1 * (L + l * R)`. -/
def negative_log_likelihood (graphs : List (Finset (ℤ × ℤ)))
    (preference_accuracy regularization_strength : ℝ) (s : List ℝ) : ℝ :=
  -1 * (logLikelihood graphs preference_accuracy s
        + regularization_strength * regularization s)

/-- Largest per-edge `max(i, j)`, over every edge of every graph
(`⊥` when there is no edge at all, which is when Python's `max` raises
`ValueError`). -/
def idxMax (graphs : List (Finset (ℤ × ℤ))) : WithBot ℤ :=
  (graphs.map (fun g => (g.image (fun e => max e.2 e.1)).max)).foldl max ⊥

/-- Source `num_vertices = 1 + max(max(i, j) for edges in graphs for j, i in
edges)`; `none` models the uncaught `ValueError` on an edgeless corpus. -/
def num_vertices (graphs : List (Finset (ℤ × ℤ))) : Option ℤ :=
  WithBot.recBotCoe none (fun m => some (1 + m)) (idxMax graphs)

/-- Source `initial_guess = [1.0] * num_vertices`. -/
def initial_guess (n : ℕ) : List ℝ := List.replicate n (1 : ℝ)

/-- Every edge index of every graph is a position Python can read on a
list of length `n`; when this fails the very first objective evaluation
inside the optimizer raises `IndexError`. -/
def validEdges (graphs : List (Finset (ℤ × ℤ))) (n : ℕ) : Prop :=
  ∀ g ∈ graphs, ∀ e ∈ g, idxOK n e.1 ∧ idxOK n e.2

instance (graphs : List (Finset (ℤ × ℤ))) (n : ℕ) : Decidable (validEdges graphs n) := by
  unfold validEdges; infer_instance

/-- Sample mean of a list (junk value `0` on the empty list, where Python
would produce `nan`). -/
def lmean (l : List ℝ) : ℝ := l.sum / l.length

/-- Population (ddof = 0) standard deviation of a list. -/
def lstd (l : List ℝ) : ℝ :=
  Real.sqrt ((l.map (fun x => (x - lmean l) ^ 2)).sum / l.length)

/-- Model of `scipy.stats.zscore` (population convention). -/
def zscore (l : List ℝ) : List ℝ := l.map (fun x => (x - lmean l) / lstd l)

/-- Source `estimate_bt_scores`.  The scipy optimizer is the opaque
parameter `minimize`; `none` models the two uncaught Python exceptions
(`ValueError` from `max` on an edgeless corpus, `IndexError` from an
out-of-range edge index during objective evaluation). -/
def estimate_bt_scores (minimize : (List ℝ → ℝ) → List ℝ → List ℝ)
    (graphs : List (Finset (ℤ × ℤ))) (standardize_bt_scores : Bool)
    (preference_accuracy regularization_strength : ℝ) : Option (List ℝ) :=
  match num_vertices graphs with
  | none => none
  | some nv =>
    if validEdges graphs nv.toNat then
      let raw :=
        (minimize
          (negative_log_likelihood graphs preference_accuracy regularization_strength)
          (initial_guess nv.toNat)).map Real.exp
      if standardize_bt_scores then some (zscore raw) else some raw
    else none

/-- Source `np.add((-bt_scores).argsort().argsort(), 1)`. -/
def bt_ranks_of (scores : List ℝ) : List ℕ :=
  ((argsort 0 (argsort 0 (scores.map (fun x => -x)))).map (fun r => r + 1))

/-- Source `estimate_bt_ranks`: scores with standardization forced off,
then the double-argsort rank transform. -/
def estimate_bt_ranks (minimize : (List ℝ → ℝ) → List ℝ → List ℝ)
    (graphs : List (Finset (ℤ × ℤ)))
    (preference_accuracy regularization_strength : ℝ) : Option (List ℕ) :=
  (estimate_bt_scores minimize graphs false preference_accuracy
    regularization_strength).map bt_ranks_of

/-- The log-likelihood written exactly as the specification words it:
for every edge `(j, i)` of every annotator graph, accumulate
`log10(h * bt(s_i, s_j) + (1 - h) * bt(s_j, s_i))`, with mathematical
(non-wrapping) indexing `s_i = s[i]`. -/
def L_spec (graphs : List (Finset (ℤ × ℤ))) (h : ℝ) (s : List ℝ) : ℝ :=
  (graphs.map (fun g => g.sum (fun e =>
    Real.logb 10 (h * bt (s.getD e.2.toNat 0) (s.getD e.1.toNat 0)
      + (1 - h) * bt (s.getD e.1.toNat 0) (s.getD e.2.toNat 0))))).sum

/-- The set of minimizers of an objective over score vectors of a fixed
length (the optimizer searches a fixed-dimension space). -/
def minimizers (f : List ℝ → ℝ) (n : ℕ) : Set (List ℝ) :=
  {s | s.length = n ∧ ∀ t : List ℝ, t.length = n → f s ≤ f t}

/-- A trivial stand-in optimizer (returns the initial guess), used to
instantiate theorems at concrete inputs. -/
def idMin : (List ℝ → ℝ) → List ℝ → List ℝ := fun _ x0 => x0

/-- A stand-in optimizer with a fixed, non-constant output. -/
def cMin : (List ℝ → ℝ) → List ℝ → List ℝ := fun _ _ => [0, Real.log 2]

end

end CrowdBT

namespace CrowdBT

/-! ### Properties of the argsort model -/

section ArgsortLemmas

variable {α : Type} [LinearOrder α]

theorem strictBelow_irrefl (key : ℕ → α) (a : ℕ) : ¬ strictBelow key a a := by
  rintro (h | ⟨-, h⟩) <;> exact lt_irrefl _ h

theorem strictBelow_trans {key : ℕ → α} {a b c : ℕ}
    (h1 : strictBelow key a b) (h2 : strictBelow key b c) : strictBelow key a c := by
  rcases h1 with h1 | ⟨h1, h1'⟩ <;> rcases h2 with h2 | ⟨h2, h2'⟩
  · exact Or.inl (h1.trans h2)
  · exact Or.inl (h2 ▸ h1)
  · exact Or.inl (h1 ▸ h2)
  · exact Or.inr ⟨h1.trans h2, h1'.trans h2'⟩

theorem strictBelow_total {key : ℕ → α} {a b : ℕ} (h : a ≠ b) :
    strictBelow key a b ∨ strictBelow key b a := by
  rcases lt_trichotomy (key a) (key b) with hk | hk | hk
  · exact Or.inl (Or.inl hk)
  · rcases lt_or_gt_of_ne h with hab | hab
    · exact Or.inl (Or.inr ⟨hk, hab⟩)
    · exact Or.inr (Or.inr ⟨hk.symm, hab⟩)
  · exact Or.inr (Or.inl hk)

theorem keyOrd_of_strictBelow {key : ℕ → α} {a b : ℕ}
    (h : strictBelow key a b) : keyOrd key a b := by
  rcases h with h | ⟨h, h'⟩
  · exact Or.inl h
  · exact Or.inr ⟨h, le_of_lt h'⟩

theorem strictBelow_of_keyOrd {key : ℕ → α} {a b : ℕ}
    (h : keyOrd key a b) (hne : a ≠ b) : strictBelow key a b := by
  rcases h with h | ⟨h, h'⟩
  · exact Or.inl h
  · exact Or.inr ⟨h, lt_of_le_of_ne h' hne⟩

theorem argsort_perm (d : α) (l : List α) :
    (argsort d l).Perm (List.range l.length) :=
  List.perm_insertionSort _ _

theorem argsort_length (d : α) (l : List α) : (argsort d l).length = l.length :=
  (argsort_perm d l).length_eq.trans (List.length_range _)

theorem argsort_nodup (d : α) (l : List α) : (argsort d l).Nodup :=
  ((argsort_perm d l).nodup_iff).mpr (List.nodup_range _)

theorem argsort_mem {d : α} {l : List α} {i : ℕ} :
    i ∈ argsort d l ↔ i < l.length := by
  rw [(argsort_perm d l).mem_iff, List.mem_range]

theorem argsort_sorted (d : α) (l : List α) :
    List.Sorted (keyOrd fun i => l.getD i d) (argsort d l) :=
  List.sorted_insertionSort _ _

theorem sorted_indexOf_eq_countP (key : ℕ → α) :
    ∀ P : List ℕ, List.Sorted (keyOrd key) P → P.Nodup → ∀ i ∈ P,
      P.indexOf i = P.countP (fun j => decide (strictBelow key j i)) := by
  intro P
  induction P with
  | nil => intro _ _ i hi; cases hi
  | cons hd tl ih =>
    intro hsort hnd i hi
    rcases List.sorted_cons.mp hsort with ⟨hhd, htl⟩
    rcases List.nodup_cons.mp hnd with ⟨hhdmem, hndtl⟩
    rw [List.countP_cons]
    by_cases hieq : i = hd
    · subst hieq
      rw [List.indexOf_cons_self]
      have hzero : tl.countP (fun j => decide (strictBelow key j i)) = 0 := by
        rw [List.countP_eq_zero]
        intro j hj
        simp only [decide_eq_true_eq]
        intro hsb
        have : j = i := antisymm (keyOrd_of_strictBelow hsb) (hhd j hj)
        rcases hsb with h | ⟨-, h⟩
        · exact absurd (this ▸ h) (lt_irrefl _)
        · exact absurd (this ▸ h) (lt_irrefl _)
      rw [hzero]
      simp [strictBelow_irrefl]
    · have himem : i ∈ tl := by
        rcases hi with _ | h
        · exact absurd rfl hieq
        · assumption
      rw [List.indexOf_cons_ne _ (fun h => hieq h.symm), ih htl hndtl i himem]
      have hTrue : strictBelow key hd i :=
        strictBelow_of_keyOrd (hhd i himem) (fun h => hieq h.symm)
      simp [hTrue, Nat.succ_eq_add_one]

theorem countP_range_strictBelow (key : ℕ → α) (n i : ℕ) :
    (List.range n).countP (fun j => decide (strictBelow key j i)) = rankCnt key n i := by
  induction n with
  | zero => simp [rankCnt]
  | succ m ih =>
    rw [List.range_succ, List.countP_append, ih]
    unfold rankCnt
    rw [Finset.range_succ, Finset.filter_insert]
    by_cases hm : strictBelow key m i
    · rw [if_pos hm, Finset.card_insert_of_not_mem (by
        intro hmem
        exact absurd ((Finset.mem_filter.mp hmem).1) (by simp))]
      simp [hm]
    · rw [if_neg hm]
      simp [hm]

theorem argsort_indexOf (d : α) (l : List α) {i : ℕ} (hi : i < l.length) :
    (argsort d l).indexOf i = rankCnt (fun j => l.getD j d) l.length i := by
  rw [sorted_indexOf_eq_countP _ _ (argsort_sorted d l) (argsort_nodup d l) i
        (argsort_mem.mpr hi),
      (argsort_perm d l).countP_eq, countP_range_strictBelow]

theorem argsort_of_perm_range (d : ℕ) {p : List ℕ} {n : ℕ}
    (hp : p.Perm (List.range n)) :
    argsort d p = (List.range n).map (fun k => p.indexOf k) := by
  have hlen : p.length = n := hp.length_eq.trans (List.length_range n)
  have hnd : p.Nodup := hp.nodup_iff.mpr (List.nodup_range n)
  have hmem : ∀ k : ℕ, k ∈ p ↔ k < n := fun k => by rw [hp.mem_iff, List.mem_range]
  have hkey : ∀ k ∈ p, p.getD (p.indexOf k) d = k := by
    intro k hk
    have hlt : p.indexOf k < p.length := List.indexOf_lt_length.mpr hk
    rw [List.getD_eq_getElem _ _ hlt, List.getElem_indexOf hlt]
  have hrs : List.Sorted (keyOrd fun j => p.getD j d)
      ((List.range n).map (fun k => p.indexOf k)) := by
    apply List.pairwise_map.mpr
    apply (List.pairwise_lt_range n).imp_of_mem
    intro a b ha hb hab
    have ha' : a ∈ p := (hmem a).mpr (List.mem_range.mp ha)
    have hb' : b ∈ p := (hmem b).mpr (List.mem_range.mp hb)
    refine Or.inl ?_
    show p.getD (p.indexOf a) d < p.getD (p.indexOf b) d
    rw [hkey a ha', hkey b hb']
    exact hab
  have hrn : ((List.range n).map (fun k => p.indexOf k)).Nodup := by
    apply List.Nodup.map_on _ (List.nodup_range n)
    intro x hx y hy hxy
    have hx' : x ∈ p := (hmem x).mpr (List.mem_range.mp hx)
    have hy' : y ∈ p := (hmem y).mpr (List.mem_range.mp hy)
    rw [← hkey x hx', ← hkey y hy', hxy]
  have hrp : ((List.range n).map (fun k => p.indexOf k)).Perm (List.range n) := by
    rw [List.perm_ext_iff_of_nodup hrn (List.nodup_range n)]
    intro a
    constructor
    · intro ha
      rcases List.mem_map.mp ha with ⟨k, hk, hka⟩
      have hk' : k ∈ p := (hmem k).mpr (List.mem_range.mp hk)
      have : p.indexOf k < p.length := List.indexOf_lt_length.mpr hk'
      rw [List.mem_range, ← hka]
      exact lt_of_lt_of_le this (le_of_eq hlen)
    · intro ha
      have ha' : a < p.length := by rw [hlen]; exact List.mem_range.mp ha
      refine List.mem_map.mpr ⟨p[a], ?_, ?_⟩
      · rw [List.mem_range, ← hmem _]
        exact List.getElem_mem ha'
      · exact List.indexOf_getElem hnd a ha'
  have hlp : (argsort d p).Perm ((List.range n).map (fun k => p.indexOf k)) :=
    ((argsort_perm d p).trans (by rw [hlen])).trans hrp.symm
  exact List.eq_of_perm_of_sorted hlp (argsort_sorted d p) hrs

end ArgsortLemmas

end CrowdBT

namespace CrowdBT

/-! ### Rank characterization -/

section RankLemmas

variable {α : Type} [LinearOrder α]

theorem rankCnt_lt_of_strictBelow {key : ℕ → α} {n i j : ℕ} (hi : i < n)
    (h : strictBelow key i j) : rankCnt key n i < rankCnt key n j := by
  apply Finset.card_lt_card
  rw [Finset.ssubset_iff_of_subset]
  · exact ⟨i, Finset.mem_filter.mpr ⟨Finset.mem_range.mpr hi, h⟩,
      fun hmem => strictBelow_irrefl key i ((Finset.mem_filter.mp hmem).2)⟩
  · intro k hk
    rcases Finset.mem_filter.mp hk with ⟨hkr, hksb⟩
    exact Finset.mem_filter.mpr ⟨hkr, strictBelow_trans hksb h⟩

theorem rankCnt_lt_rankCnt_iff {key : ℕ → α} {n i j : ℕ} (hi : i < n) (hj : j < n) :
    rankCnt key n i < rankCnt key n j ↔ strictBelow key i j := by
  constructor
  · intro hlt
    rcases eq_or_ne i j with rfl | hne
    · exact absurd hlt (lt_irrefl _)
    · rcases @strictBelow_total _ _ key i j hne with h | h
      · exact h
      · exact absurd (rankCnt_lt_of_strictBelow hj h) (lt_asymm hlt)
  · exact rankCnt_lt_of_strictBelow hi

theorem rankCnt_eq_zero_iff {key : ℕ → α} {n i : ℕ} :
    rankCnt key n i = 0 ↔ ∀ j < n, ¬ strictBelow key j i := by
  unfold rankCnt
  rw [Finset.card_eq_zero, Finset.filter_eq_empty_iff]
  exact ⟨fun h j hj => h (Finset.mem_range.mpr hj),
    fun h x hx => h x (Finset.mem_range.mp hx)⟩

end RankLemmas

theorem bt_ranks_of_length (s : List ℝ) : (bt_ranks_of s).length = s.length := by
  unfold bt_ranks_of
  rw [List.length_map, argsort_length, argsort_length, List.length_map]

theorem bt_ranks_of_perm (s : List ℝ) :
    (bt_ranks_of s).Perm ((List.range s.length).map (fun r => r + 1)) := by
  unfold bt_ranks_of
  apply List.Perm.map
  have h := argsort_perm 0 (argsort 0 (s.map fun x => -x))
  rwa [argsort_length, List.length_map] at h

theorem bt_ranks_of_getD {s : List ℝ} {i : ℕ} (hi : i < s.length) :
    (bt_ranks_of s).getD i 0
      = rankCnt (fun j => (s.map fun x => -x).getD j 0) s.length i + 1 := by
  have hl1 : (s.map fun x => -x).length = s.length := List.length_map _ _
  have hq : (argsort (0 : ℝ) (s.map fun x => -x)).Perm (List.range s.length) := by
    have h := argsort_perm (0 : ℝ) (s.map fun x => -x)
    rwa [hl1] at h
  unfold bt_ranks_of
  rw [argsort_of_perm_range 0 hq]
  have hlen : (((List.range s.length).map
      (fun k => (argsort (0 : ℝ) (s.map fun x => -x)).indexOf k)).map
      (fun r => r + 1)).length = s.length := by
    rw [List.length_map, List.length_map, List.length_range]
  have hi2 : i < (((List.range s.length).map
      (fun k => (argsort (0 : ℝ) (s.map fun x => -x)).indexOf k)).map
      (fun r => r + 1)).length := by
    rw [hlen]; exact hi
  rw [List.getD_eq_getElem _ _ hi2, List.getElem_map, List.getElem_map,
    List.getElem_range]
  have := argsort_indexOf (0 : ℝ) (s.map fun x => -x) (i := i) (hl1 ▸ hi)
  rw [this, hl1]

theorem strictBelow_negmap {s : List ℝ} {i j : ℕ} (hi : i < s.length)
    (hj : j < s.length) :
    strictBelow (fun k => (s.map fun x => -x).getD k 0) i j
      ↔ (s.getD j 0 < s.getD i 0 ∨ (s.getD i 0 = s.getD j 0 ∧ i < j)) := by
  have hval : ∀ k : ℕ, k < s.length → (s.map fun x => -x).getD k 0 = -(s.getD k 0) := by
    intro k hk
    have hk' : k < (s.map fun x => -x).length := by
      rw [List.length_map]; exact hk
    rw [List.getD_eq_getElem _ _ hk', List.getElem_map,
      List.getD_eq_getElem _ _ hk]
  unfold strictBelow
  simp only []
  rw [hval i hi, hval j hj]
  constructor
  · rintro (h | ⟨h, h'⟩)
    · exact Or.inl (by linarith)
    · exact Or.inr ⟨by linarith, h'⟩
  · rintro (h | ⟨h, h'⟩)
    · exact Or.inl (by linarith)
    · exact Or.inr ⟨by linarith, h'⟩

end CrowdBT

namespace CrowdBT

/-! ### Facts about `num_vertices` and the scores pipeline -/

section FoldMax

variable {α : Type} [LinearOrder α]

theorem le_foldl_max : ∀ (l : List α) (a : α), a ≤ l.foldl max a := by
  intro l
  induction l with
  | nil => intro a; exact le_refl a
  | cons x t ih => intro a; exact le_trans (le_max_left a x) (ih (max a x))

theorem le_foldl_max_of_mem {b : α} :
    ∀ (l : List α) (a : α), b ∈ l → b ≤ l.foldl max a := by
  intro l
  induction l with
  | nil => intro a hb; cases hb
  | cons x t ih =>
    intro a hb
    rcases List.mem_cons.mp hb with heq | hb
    · rw [heq]
      exact le_trans (le_max_right a x) (le_foldl_max t (max a x))
    · exact ih (max a x) hb

theorem foldl_max_choice : ∀ (l : List α) (a : α), l.foldl max a = a ∨ l.foldl max a ∈ l := by
  intro l
  induction l with
  | nil => intro a; exact Or.inl rfl
  | cons x t ih =>
    intro a
    rcases ih (max a x) with h | h
    · rcases max_choice a x with hm | hm
      · exact Or.inl (by rw [List.foldl_cons, h, hm])
      · exact Or.inr (by rw [List.foldl_cons, h, hm]; exact List.mem_cons_self x t)
    · exact Or.inr (List.mem_cons_of_mem x h)

end FoldMax

theorem edge_le_idxMax {graphs : List (Finset (ℤ × ℤ))} {g : Finset (ℤ × ℤ)}
    {e : ℤ × ℤ} (hg : g ∈ graphs) (he : e ∈ g) :
    (max e.2 e.1 : WithBot ℤ) ≤ idxMax graphs := by
  have h1 : (max e.2 e.1 : WithBot ℤ) ≤ (g.image (fun e => max e.2 e.1)).max :=
    Finset.le_max (Finset.mem_image.mpr ⟨e, he, rfl⟩)
  have h2 : (g.image (fun e => max e.2 e.1)).max
      ∈ graphs.map (fun g => (g.image (fun e => max e.2 e.1)).max) :=
    List.mem_map.mpr ⟨g, hg, rfl⟩
  exact le_trans h1 (le_foldl_max_of_mem _ ⊥ h2)

theorem idxMax_attained {graphs : List (Finset (ℤ × ℤ))} {m : ℤ}
    (h : idxMax graphs = (m : WithBot ℤ)) :
    ∃ g ∈ graphs, ∃ e ∈ g, max e.2 e.1 = m := by
  unfold idxMax at h
  rcases foldl_max_choice
      (graphs.map (fun g => (g.image (fun e => max e.2 e.1)).max)) ⊥ with hc | hc
  · rw [h] at hc
    exact absurd hc (by simp)
  · rw [h] at hc
    rcases List.mem_map.mp hc with ⟨g, hg, hgm⟩
    rcases Finset.mem_image.mp (Finset.mem_of_max hgm) with ⟨e, he, hem⟩
    exact ⟨g, hg, e, he, hem⟩

theorem num_vertices_of_idxMax_bot {graphs : List (Finset (ℤ × ℤ))}
    (h : idxMax graphs = ⊥) : num_vertices graphs = none := by
  rw [num_vertices, h]; rfl

theorem num_vertices_of_idxMax_coe {graphs : List (Finset (ℤ × ℤ))} {m : ℤ}
    (h : idxMax graphs = (m : WithBot ℤ)) : num_vertices graphs = some (1 + m) := by
  rw [num_vertices, h]; rfl

theorem num_vertices_some_elim {graphs : List (Finset (ℤ × ℤ))} {nv : ℤ}
    (h : num_vertices graphs = some nv) :
    idxMax graphs = ((nv - 1 : ℤ) : WithBot ℤ) := by
  rcases hx : idxMax graphs with _ | m
  · rw [num_vertices_of_idxMax_bot hx] at h; cases h
  · rw [num_vertices_of_idxMax_coe hx] at h
    have hnv : nv = 1 + m := (Option.some_inj.mp h).symm
    subst hnv
    have h2 : (1 + m - 1 : ℤ) = m := by ring
    rw [h2]
    rfl

theorem validEdges_of_nonneg {graphs : List (Finset (ℤ × ℤ))} {nv : ℤ}
    (hn : num_vertices graphs = some nv)
    (hpos : ∀ g ∈ graphs, ∀ e ∈ g, (0 : ℤ) ≤ e.1 ∧ (0 : ℤ) ≤ e.2) :
    validEdges graphs nv.toNat := by
  have hm := num_vertices_some_elim hn
  intro g hg e he
  have hle : (max e.2 e.1 : WithBot ℤ) ≤ ((nv - 1 : ℤ) : WithBot ℤ) :=
    hm ▸ edge_le_idxMax hg he
  have hle' : max e.2 e.1 ≤ nv - 1 := WithBot.coe_le_coe.mp hle
  rcases hpos g hg e he with ⟨h1, h2⟩
  have hmax0 : (0 : ℤ) ≤ max e.2 e.1 := le_trans h2 (le_max_left _ _)
  have hnv1 : (1 : ℤ) ≤ nv := by linarith
  have hcast : ((nv.toNat : ℤ)) = nv := Int.toNat_of_nonneg (by linarith)
  constructor
  · constructor
    · linarith [neg_nonpos_of_nonneg (le_trans (Int.ofNat_nonneg nv.toNat) (le_of_eq hcast))]
    · have : e.1 ≤ nv - 1 := le_trans (le_max_right _ _) hle'
      rw [hcast]; linarith
  · constructor
    · linarith [neg_nonpos_of_nonneg (le_trans (Int.ofNat_nonneg nv.toNat) (le_of_eq hcast))]
    · have : e.2 ≤ nv - 1 := le_trans (le_max_left _ _) hle'
      rw [hcast]; linarith

theorem estimate_scores_eq {graphs : List (Finset (ℤ × ℤ))} {nv : ℤ}
    (minimize : (List ℝ → ℝ) → List ℝ → List ℝ) (std : Bool) (pa rs : ℝ)
    (hn : num_vertices graphs = some nv) (hv : validEdges graphs nv.toNat) :
    estimate_bt_scores minimize graphs std pa rs =
      (if std then
        some (zscore ((minimize (negative_log_likelihood graphs pa rs)
          (initial_guess nv.toNat)).map Real.exp))
      else
        some ((minimize (negative_log_likelihood graphs pa rs)
          (initial_guess nv.toNat)).map Real.exp)) := by
  unfold estimate_bt_scores
  rw [hn]
  simp only [if_pos hv]

theorem estimate_scores_none {graphs : List (Finset (ℤ × ℤ))}
    (minimize : (List ℝ → ℝ) → List ℝ → List ℝ) (std : Bool) (pa rs : ℝ)
    (hn : num_vertices graphs = none) :
    estimate_bt_scores minimize graphs std pa rs = none := by
  unfold estimate_bt_scores
  rw [hn]

end CrowdBT

namespace CrowdBT

/-! ### Concrete evaluations used to instantiate the theorems -/

theorem num_vertices_g0 : num_vertices [{((1 : ℤ), (0 : ℤ))}] = some 2 := by decide

theorem validEdges_g0 : validEdges [{((1 : ℤ), (0 : ℤ))}] ((2 : ℤ)).toNat := by decide

theorem estimate_g0_idMin (pa rs : ℝ) :
    estimate_bt_scores idMin [{((1 : ℤ), (0 : ℤ))}] false pa rs
      = some [Real.exp 1, Real.exp 1] := by
  rw [estimate_scores_eq idMin false pa rs num_vertices_g0 validEdges_g0]
  simp [idMin, initial_guess, List.replicate]

theorem estimate_g0_cMin (pa rs : ℝ) :
    estimate_bt_scores cMin [{((1 : ℤ), (0 : ℤ))}] false pa rs
      = some [1, 2] := by
  rw [estimate_scores_eq cMin false pa rs num_vertices_g0 validEdges_g0]
  simp [cMin, Real.exp_zero, Real.exp_log, two_pos]

theorem bt_ranks_of_pair_lt {a b : ℝ} (h : a < b) : bt_ranks_of [a, b] = [2, 1] := by
  have hlen2 : ([a, b] : List ℝ).length = 2 := rfl
  have hkey0 : (([a, b] : List ℝ).map fun x => -x).getD 0 0 = -a := rfl
  have hkey1 : (([a, b] : List ℝ).map fun x => -x).getD 1 0 = -b := rfl
  apply List.ext_getElem
  · rw [bt_ranks_of_length]
    rfl
  · intro i h1 h2
    have hi : i < 2 := by
      have := h1
      rw [bt_ranks_of_length] at this
      exact this
    interval_cases i
    · have h0 := bt_ranks_of_getD (s := [a, b]) (i := 0) (by norm_num)
      rw [List.getD_eq_getElem _ _ h1] at h0
      rw [h0]
      have hflt : ((Finset.range 2).filter
          (fun j => strictBelow (fun k => (([a, b] : List ℝ).map fun x => -x).getD k 0) j 0))
          = {1} := by
        ext j
        simp only [Finset.mem_filter, Finset.mem_range, Finset.mem_singleton]
        constructor
        · rintro ⟨hj, hsb⟩
          interval_cases j
          · exact absurd hsb (strictBelow_irrefl _ 0)
          · rfl
        · rintro rfl
          refine ⟨by norm_num, Or.inl ?_⟩
          simp only []
          rw [hkey1, hkey0]
          linarith
      rw [hlen2]
      unfold rankCnt
      rw [hflt]
      rfl
    · have h0 := bt_ranks_of_getD (s := [a, b]) (i := 1) (by norm_num)
      rw [List.getD_eq_getElem _ _ h1] at h0
      rw [h0]
      have hflt : ((Finset.range 2).filter
          (fun j => strictBelow (fun k => (([a, b] : List ℝ).map fun x => -x).getD k 0) j 1))
          = ∅ := by
        rw [Finset.filter_eq_empty_iff]
        intro j hj
        rw [Finset.mem_range] at hj
        interval_cases j
        · rintro (hlt | ⟨heq, -⟩)
          · simp only [] at hlt
            rw [hkey0, hkey1] at hlt
            linarith
          · simp only [] at heq
            rw [hkey0, hkey1] at heq
            linarith
        · exact strictBelow_irrefl _ 1
      rw [hlen2]
      unfold rankCnt
      rw [hflt]
      rfl

theorem bt_ranks_of_pair_eq (a : ℝ) : bt_ranks_of [a, a] = [1, 2] := by
  have hlen2 : ([a, a] : List ℝ).length = 2 := rfl
  have hkey0 : (([a, a] : List ℝ).map fun x => -x).getD 0 0 = -a := rfl
  have hkey1 : (([a, a] : List ℝ).map fun x => -x).getD 1 0 = -a := rfl
  apply List.ext_getElem
  · rw [bt_ranks_of_length]
    rfl
  · intro i h1 h2
    have hi : i < 2 := by
      have := h1
      rw [bt_ranks_of_length] at this
      exact this
    interval_cases i
    · have h0 := bt_ranks_of_getD (s := [a, a]) (i := 0) (by norm_num)
      rw [List.getD_eq_getElem _ _ h1] at h0
      rw [h0]
      have hflt : ((Finset.range 2).filter
          (fun j => strictBelow (fun k => (([a, a] : List ℝ).map fun x => -x).getD k 0) j 0))
          = ∅ := by
        rw [Finset.filter_eq_empty_iff]
        intro j hj
        rw [Finset.mem_range] at hj
        interval_cases j
        · exact strictBelow_irrefl _ 0
        · rintro (hlt | ⟨-, hor⟩)
          · simp only [] at hlt
            rw [hkey1, hkey0] at hlt
            linarith
          · exact absurd hor (by norm_num)
      rw [hlen2]
      unfold rankCnt
      rw [hflt]
      rfl
    · have h0 := bt_ranks_of_getD (s := [a, a]) (i := 1) (by norm_num)
      rw [List.getD_eq_getElem _ _ h1] at h0
      rw [h0]
      have hflt : ((Finset.range 2).filter
          (fun j => strictBelow (fun k => (([a, a] : List ℝ).map fun x => -x).getD k 0) j 1))
          = {0} := by
        ext j
        simp only [Finset.mem_filter, Finset.mem_range, Finset.mem_singleton]
        constructor
        · rintro ⟨hj, hsb⟩
          interval_cases j
          · rfl
          · exact absurd hsb (strictBelow_irrefl _ 1)
        · rintro rfl
          refine ⟨by norm_num, Or.inr ⟨?_, by norm_num⟩⟩
          simp only []
          rw [hkey0, hkey1]
      rw [hlen2]
      unfold rankCnt
      rw [hflt]
      rfl

end CrowdBT

namespace CrowdBT

/-! ### Claim C4 -/

/-- C4: the claim says an empty corpus (no annotators, or annotator graphs
with no edges at all) is rejected with an explicit, named "no preference
data" error.  The code has no such handling: `max` over the empty
generator at `num_vertices = 1 + max(...)` raises an uncaught
`ValueError` (modelled by `none`), and `estimate_bt_scores` /
`estimate_bt_ranks` simply crash through it.  This theorem evaluates the
code at the failing inputs. -/
theorem c4_empty_corpus_uncaught (minimize : (List ℝ → ℝ) → List ℝ → List ℝ)
    (std : Bool) (pa rs : ℝ) :
    num_vertices [] = none ∧
    num_vertices [(∅ : Finset (ℤ × ℤ))] = none ∧
    estimate_bt_scores minimize [] std pa rs = none ∧
    estimate_bt_scores minimize [(∅ : Finset (ℤ × ℤ))] std pa rs = none ∧
    estimate_bt_ranks minimize [] pa rs = none ∧
    estimate_bt_ranks minimize [(∅ : Finset (ℤ × ℤ))] pa rs = none := by
  have h1 : num_vertices ([] : List (Finset (ℤ × ℤ))) = none := by decide
  have h2 : num_vertices [(∅ : Finset (ℤ × ℤ))] = none := by decide
  refine ⟨h1, h2, estimate_scores_none minimize std pa rs h1,
    estimate_scores_none minimize std pa rs h2, ?_, ?_⟩
  · rw [estimate_bt_ranks, estimate_scores_none minimize false pa rs h1]
    rfl
  · rw [estimate_bt_ranks, estimate_scores_none minimize false pa rs h2]
    rfl

/-! ### Claim C5 -/

/-- C5: the claim says an edge with a negative object index is rejected
with a validation error before the objective is built.  The code performs
no validation: on `[{(-1, 0)}]` it sizes the vector from the maximum
index (N = 1), Python's negative indexing silently wraps `s[-1]` to
`s[0]`, the pipeline returns a result (`isSome`), and the objective is
literally the same function as for the self-loop corpus `[{(0, 0)}]`. -/
theorem c5_negative_index_not_rejected
    (minimize : (List ℝ → ℝ) → List ℝ → List ℝ) (pa rs : ℝ) (s : List ℝ)
    (hs : s.length = 1) :
    (estimate_bt_scores minimize [{((-1 : ℤ), (0 : ℤ))}] false pa rs).isSome = true ∧
    negative_log_likelihood [{((-1 : ℤ), (0 : ℤ))}] pa rs s
      = negative_log_likelihood [{((0 : ℤ), (0 : ℤ))}] pa rs s := by
  constructor
  · have hn5 : num_vertices [{((-1 : ℤ), (0 : ℤ))}] = some 1 := by decide
    have hv5 : validEdges [{((-1 : ℤ), (0 : ℤ))}] ((1 : ℤ)).toNat := by decide
    rw [estimate_scores_eq minimize false pa rs hn5 hv5]
    rfl
  · have hsat : sAt s (-1) = sAt s 0 := by
      unfold sAt pyIdx
      rw [hs]
      norm_num
    have hL : logLikelihood [{((-1 : ℤ), (0 : ℤ))}] pa s
        = logLikelihood [{((0 : ℤ), (0 : ℤ))}] pa s := by
      unfold logLikelihood
      simp only [List.map_cons, List.map_nil, Finset.sum_singleton,
        List.sum_cons, List.sum_nil]
      unfold edgeTerm
      rw [hsat]
    rw [negative_log_likelihood, negative_log_likelihood, hL]

/-- C5 witness: the theorem applied at the length-1 vector `[5]`. -/
theorem c5_witness :
    ([(5 : ℝ)] : List ℝ).length = 1 ∧
    ((estimate_bt_scores idMin [{((-1 : ℤ), (0 : ℤ))}] false (9/10) (1/2)).isSome = true ∧
      negative_log_likelihood [{((-1 : ℤ), (0 : ℤ))}] (9/10) (1/2) [(5 : ℝ)]
        = negative_log_likelihood [{((0 : ℤ), (0 : ℤ))}] (9/10) (1/2) [(5 : ℝ)]) :=
  ⟨rfl, c5_negative_index_not_rejected idMin (9/10) (1/2) [(5 : ℝ)] rfl⟩

/-! ### Claim C3 -/

/-- C3 counterexample: the claim says the initial guess handed to the
optimizer is N copies of the log-score 0.0.  On the corpus `[{(1, 0)}]`
(N = 2) the code builds `[1.0] * 2 = [1.0, 1.0]`, which is not
`[0.0, 0.0]`. -/
theorem c3_counterexample :
    num_vertices [{((1 : ℤ), (0 : ℤ))}] = some 2 ∧
    initial_guess ((2 : ℤ)).toNat = [(1 : ℝ), 1] ∧
    ([(1 : ℝ), 1] : List ℝ) ≠ [0, 0] := by
  refine ⟨num_vertices_g0, ?_, ?_⟩
  · simp [initial_guess, List.replicate]
  · intro h
    have : (1 : ℝ) = 0 := by
      have := List.head_eq_of_cons_eq h
      exact this
    norm_num at this

/-- C3 amended: the vector handed to the optimizer is N copies of the
constant 1.0 (log-score 1.0, raw score e), regardless of graph content —
it depends on the corpus only through N. -/
theorem c3_initial_guess_amended (minimize : (List ℝ → ℝ) → List ℝ → List ℝ)
    (graphs : List (Finset (ℤ × ℤ))) {nv : ℤ} (std : Bool) (pa rs : ℝ)
    (hn : num_vertices graphs = some nv) (hv : validEdges graphs nv.toNat) :
    initial_guess nv.toNat = List.replicate nv.toNat (1 : ℝ) ∧
    estimate_bt_scores minimize graphs std pa rs =
      (if std then
        some (zscore ((minimize (negative_log_likelihood graphs pa rs)
          (List.replicate nv.toNat (1 : ℝ))).map Real.exp))
      else
        some ((minimize (negative_log_likelihood graphs pa rs)
          (List.replicate nv.toNat (1 : ℝ))).map Real.exp)) := by
  refine ⟨rfl, ?_⟩
  rw [estimate_scores_eq minimize std pa rs hn hv]
  rfl

/-- C3 witness: the amended theorem applied to the corpus `[{(1, 0)}]`. -/
theorem c3_witness :
    num_vertices [{((1 : ℤ), (0 : ℤ))}] = some 2 ∧
    validEdges [{((1 : ℤ), (0 : ℤ))}] ((2 : ℤ)).toNat ∧
    (initial_guess ((2 : ℤ)).toNat = List.replicate ((2 : ℤ)).toNat (1 : ℝ) ∧
      estimate_bt_scores idMin [{((1 : ℤ), (0 : ℤ))}] false (9/10) (1/2) =
        (if false then
          some (zscore ((idMin (negative_log_likelihood [{((1 : ℤ), (0 : ℤ))}] (9/10) (1/2))
            (List.replicate ((2 : ℤ)).toNat (1 : ℝ))).map Real.exp))
        else
          some ((idMin (negative_log_likelihood [{((1 : ℤ), (0 : ℤ))}] (9/10) (1/2))
            (List.replicate ((2 : ℤ)).toNat (1 : ℝ))).map Real.exp))) :=
  ⟨num_vertices_g0, validEdges_g0,
    c3_initial_guess_amended idMin [{((1 : ℤ), (0 : ℤ))}] false (9/10) (1/2)
      num_vertices_g0 validEdges_g0⟩

end CrowdBT

namespace CrowdBT

/-! ### Claim C7 -/

/-- C7: for a valid non-empty corpus, `estimate_bt_ranks` computes its
ranks as the double-argsort of the scores obtained with standardization
forced off, the result has length N and is a permutation of `1..N`, and
some position carrying rank 1 holds a maximal score. -/
theorem c7_ranks_permutation (minimize : (List ℝ → ℝ) → List ℝ → List ℝ)
    (graphs : List (Finset (ℤ × ℤ))) (pa rs : ℝ) {nv : ℤ} {sc : List ℝ}
    {rk : List ℕ}
    (hn : num_vertices graphs = some nv)
    (hpos : ∀ g ∈ graphs, ∀ e ∈ g, (0 : ℤ) ≤ e.1 ∧ (0 : ℤ) ≤ e.2)
    (hml : ∀ f x0, (minimize f x0).length = x0.length)
    (hsc : estimate_bt_scores minimize graphs false pa rs = some sc)
    (hrk : estimate_bt_ranks minimize graphs pa rs = some rk) :
    rk = bt_ranks_of sc ∧
    rk.length = nv.toNat ∧
    rk.Perm ((List.range nv.toNat).map (fun r => r + 1)) ∧
    ∃ i, i < rk.length ∧ rk.getD i 0 = 1 ∧
      ∀ j, j < sc.length → sc.getD j 0 ≤ sc.getD i 0 := by
  have hv := validEdges_of_nonneg hn hpos
  have hsc' : sc = (minimize (negative_log_likelihood graphs pa rs)
      (initial_guess nv.toNat)).map Real.exp := by
    rw [estimate_scores_eq minimize false pa rs hn hv] at hsc
    simp only [Bool.false_eq_true, if_false] at hsc
    exact (Option.some_inj.mp hsc).symm
  have hscl : sc.length = nv.toNat := by
    rw [hsc', List.length_map, hml, initial_guess, List.length_replicate]
  have hrk2 : rk = bt_ranks_of sc := by
    rw [estimate_bt_ranks, hsc] at hrk
    exact (Option.some_inj.mp hrk).symm
  have hrkl : rk.length = nv.toNat := by
    rw [hrk2, bt_ranks_of_length, hscl]
  have hperm : rk.Perm ((List.range nv.toNat).map (fun r => r + 1)) := by
    rw [hrk2, ← hscl]
    exact bt_ranks_of_perm sc
  have hnv1 : (1 : ℤ) ≤ nv := by
    obtain ⟨g, hg, e, he, hem⟩ := idxMax_attained (num_vertices_some_elim hn)
    rcases hpos g hg e he with ⟨-, h2⟩
    have : (0 : ℤ) ≤ max e.2 e.1 := le_trans h2 (le_max_left _ _)
    omega
  have h1mem : (1 : ℕ) ∈ rk :=
    hperm.mem_iff.mpr (List.mem_map.mpr ⟨0, List.mem_range.mpr (by omega), rfl⟩)
  obtain ⟨i, hilt, hieq⟩ := List.getElem_of_mem h1mem
  have hgetD : rk.getD i 0 = 1 := by
    rw [List.getD_eq_getElem _ _ hilt, hieq]
  have hisc : i < sc.length := by
    have := hilt
    rw [hrk2, bt_ranks_of_length] at this
    exact this
  refine ⟨hrk2, hrkl, hperm, i, hilt, hgetD, ?_⟩
  intro j hj
  have hcnt : rankCnt (fun k => (sc.map fun x => -x).getD k 0) sc.length i = 0 := by
    have hchar := bt_ranks_of_getD hisc
    rw [← hrk2, hgetD] at hchar
    omega
  have hnsb := (rankCnt_eq_zero_iff.mp hcnt) j hj
  rw [strictBelow_negmap hj hisc] at hnsb
  push_neg at hnsb
  exact hnsb.1

/-- C7 witness: the theorem applied to the corpus `[{(1, 0)}]` and the
stand-in optimizer `idMin` (scores `[e, e]`, ranks `[1, 2]`). -/
theorem c7_witness :
    (∀ f x0, (idMin f x0).length = x0.length) ∧
    (∀ g ∈ ([{((1 : ℤ), (0 : ℤ))}] : List (Finset (ℤ × ℤ))), ∀ e ∈ g, (0 : ℤ) ≤ e.1 ∧ (0 : ℤ) ≤ e.2) ∧
    (bt_ranks_of [Real.exp 1, Real.exp 1] = bt_ranks_of [Real.exp 1, Real.exp 1] ∧
      (bt_ranks_of [Real.exp 1, Real.exp 1]).length = ((2 : ℤ)).toNat ∧
      (bt_ranks_of [Real.exp 1, Real.exp 1]).Perm
        ((List.range ((2 : ℤ)).toNat).map (fun r => r + 1)) ∧
      ∃ i, i < (bt_ranks_of [Real.exp 1, Real.exp 1]).length ∧
        (bt_ranks_of [Real.exp 1, Real.exp 1]).getD i 0 = 1 ∧
        ∀ j, j < ([Real.exp 1, Real.exp 1] : List ℝ).length →
          ([Real.exp 1, Real.exp 1] : List ℝ).getD j 0
            ≤ ([Real.exp 1, Real.exp 1] : List ℝ).getD i 0) := by
  refine ⟨fun f x0 => rfl, by decide, ?_⟩
  exact c7_ranks_permutation idMin [{((1 : ℤ), (0 : ℤ))}] (9/10) (1/2)
    num_vertices_g0 (by decide) (fun f x0 => rfl)
    (estimate_g0_idMin (9/10) (1/2))
    (by rw [estimate_bt_ranks, estimate_g0_idMin (9/10) (1/2)]; rfl)

/-! ### Claim C8 -/

/-- C8: for a valid non-empty corpus (and the scipy guarantee that the
optimizer's output has the length of the initial guess),
`estimate_bt_scores` with standardization off returns strictly positive
reals, of length exactly `1 + (the maximum object index in any edge)`. -/
theorem c8_scores_positive (minimize : (List ℝ → ℝ) → List ℝ → List ℝ)
    (graphs : List (Finset (ℤ × ℤ))) (pa rs : ℝ) {nv : ℤ}
    (hn : num_vertices graphs = some nv)
    (hpos : ∀ g ∈ graphs, ∀ e ∈ g, (0 : ℤ) ≤ e.1 ∧ (0 : ℤ) ≤ e.2)
    (hml : ∀ f x0, (minimize f x0).length = x0.length) :
    ∃ sc, estimate_bt_scores minimize graphs false pa rs = some sc ∧
      sc.length = nv.toNat ∧ ((nv.toNat : ℤ)) = nv ∧
      (∃ g ∈ graphs, ∃ e ∈ g, nv = 1 + max e.2 e.1 ∧
        ∀ g2 ∈ graphs, ∀ e2 ∈ g2, max e2.2 e2.1 ≤ max e.2 e.1) ∧
      ∀ x ∈ sc, 0 < x := by
  have hv := validEdges_of_nonneg hn hpos
  have hm := num_vertices_some_elim hn
  obtain ⟨g, hg, e, he, hem⟩ := idxMax_attained hm
  have hnv1 : (1 : ℤ) ≤ nv := by
    rcases hpos g hg e he with ⟨-, h2⟩
    have : (0 : ℤ) ≤ max e.2 e.1 := le_trans h2 (le_max_left _ _)
    omega
  refine ⟨(minimize (negative_log_likelihood graphs pa rs)
      (initial_guess nv.toNat)).map Real.exp, ?_, ?_, ?_, ?_, ?_⟩
  · rw [estimate_scores_eq minimize false pa rs hn hv]
    simp
  · rw [List.length_map, hml, initial_guess, List.length_replicate]
  · omega
  · refine ⟨g, hg, e, he, by omega, ?_⟩
    intro g2 hg2 e2 he2
    have hle : (max e2.2 e2.1 : WithBot ℤ) ≤ ((nv - 1 : ℤ) : WithBot ℤ) :=
      hm ▸ edge_le_idxMax hg2 he2
    have := WithBot.coe_le_coe.mp hle
    omega
  · intro x hx
    rcases List.mem_map.mp hx with ⟨v, -, hxe⟩
    rw [← hxe]
    exact Real.exp_pos v

/-- C8 witness: the theorem applied to the corpus `[{(1, 0)}]` with the
stand-in optimizer `idMin`. -/
theorem c8_witness :
    num_vertices [{((1 : ℤ), (0 : ℤ))}] = some 2 ∧
    (∀ g ∈ ([{((1 : ℤ), (0 : ℤ))}] : List (Finset (ℤ × ℤ))), ∀ e ∈ g, (0 : ℤ) ≤ e.1 ∧ (0 : ℤ) ≤ e.2) ∧
    ∃ sc, estimate_bt_scores idMin [{((1 : ℤ), (0 : ℤ))}] false (9/10) (1/2) = some sc ∧
      sc.length = ((2 : ℤ)).toNat ∧ (((2 : ℤ)).toNat : ℤ) = 2 ∧
      (∃ g ∈ ([{((1 : ℤ), (0 : ℤ))}] : List (Finset (ℤ × ℤ))), ∃ e ∈ g, (2 : ℤ) = 1 + max e.2 e.1 ∧
        ∀ g2 ∈ ([{((1 : ℤ), (0 : ℤ))}] : List (Finset (ℤ × ℤ))), ∀ e2 ∈ g2, max e2.2 e2.1 ≤ max e.2 e.1) ∧
      ∀ x ∈ sc, 0 < x :=
  ⟨num_vertices_g0, by decide,
    c8_scores_positive idMin [{((1 : ℤ), (0 : ℤ))}] (9/10) (1/2)
      num_vertices_g0 (by decide) (fun f x0 => rfl)⟩

end CrowdBT

namespace CrowdBT

/-! ### Claim C1 -/

theorem sAt_of_nonneg (s : List ℝ) {i : ℤ} (hi : 0 ≤ i) :
    sAt s i = s.getD i.toNat 0 := by
  unfold sAt pyIdx
  rw [if_neg (not_lt.mpr hi)]

/-- C1: on a non-empty corpus with valid (non-negative) edge indices and a
length-N score vector, the objective handed to the minimizer equals the
negative regularized log-likelihood `-(L + λ·R)`, with `L` written
exactly as the specification words it (`L_spec`). -/
theorem c1_objective_matches_spec (graphs : List (Finset (ℤ × ℤ)))
    (pa rs : ℝ) (s : List ℝ) {nv : ℤ}
    (hn : num_vertices graphs = some nv) (hs : s.length = nv.toNat)
    (hpos : ∀ g ∈ graphs, ∀ e ∈ g, (0 : ℤ) ≤ e.1 ∧ (0 : ℤ) ≤ e.2) :
    negative_log_likelihood graphs pa rs s
      = -(L_spec graphs pa s + rs * regularization s) := by
  have hL : logLikelihood graphs pa s = L_spec graphs pa s := by
    unfold logLikelihood L_spec
    congr 1
    apply List.map_congr_left
    intro g hg
    apply Finset.sum_congr rfl
    intro e he
    rcases hpos g hg e he with ⟨h1, h2⟩
    unfold edgeTerm
    rw [sAt_of_nonneg s h1, sAt_of_nonneg s h2]
  rw [negative_log_likelihood, hL]
  ring

/-- C1 witness: the theorem applied to the corpus `[{(1, 0)}]` at the
score vector `[0, 0]`. -/
theorem c1_witness :
    num_vertices [{((1 : ℤ), (0 : ℤ))}] = some 2 ∧
    ([(0 : ℝ), 0] : List ℝ).length = ((2 : ℤ)).toNat ∧
    (∀ g ∈ ([{((1 : ℤ), (0 : ℤ))}] : List (Finset (ℤ × ℤ))),
      ∀ e ∈ g, (0 : ℤ) ≤ e.1 ∧ (0 : ℤ) ≤ e.2) ∧
    negative_log_likelihood [{((1 : ℤ), (0 : ℤ))}] (9/10) (1/2) [(0 : ℝ), 0]
      = -(L_spec [{((1 : ℤ), (0 : ℤ))}] (9/10) [(0 : ℝ), 0]
          + (1/2) * regularization [(0 : ℝ), 0]) :=
  ⟨num_vertices_g0, rfl, by decide,
    c1_objective_matches_spec [{((1 : ℤ), (0 : ℤ))}] (9/10) (1/2) [(0 : ℝ), 0]
      num_vertices_g0 rfl (by decide)⟩

/-! ### Claim C10 -/

theorem list_sum_set : ∀ (l : List ℝ) (k : ℕ) (a : ℝ), k < l.length →
    (l.set k a).sum = l.sum - l.getD k 0 + a := by
  intro l
  induction l with
  | nil => intro k a hk; cases hk
  | cons x t ih =>
    intro k a hk
    cases k with
    | zero =>
      simp only [List.set, List.sum_cons, List.getD_cons_zero]
      ring
    | succ m =>
      have hm : m < t.length := by simpa using hk
      simp only [List.set, List.sum_cons, List.getD_cons_succ]
      rw [ih m a hm]
      ring

theorem bt_self (x : ℝ) : bt x x = 1/2 := by
  unfold bt
  rw [div_eq_iff (by positivity)]
  ring

theorem edgeTerm_self (h : ℝ) (s : List ℝ) (i : ℤ) :
    edgeTerm h s (i, i) = Real.logb 10 (1/2) := by
  unfold edgeTerm
  rw [bt_self]
  congr 1
  ring

/-- C10: adding a fresh self-loop `(i, i)` to the k-th annotator graph
shifts the objective by the score-independent constant `-log10(1/2)` at
every score vector, so the minimizer sets over any fixed dimension
coincide. -/
theorem c10_self_loop_constant_shift (graphs : List (Finset (ℤ × ℤ)))
    (k : ℕ) (hk : k < graphs.length) (i : ℤ) (pa rs : ℝ)
    (hnm : (i, i) ∉ graphs.get ⟨k, hk⟩) :
    (∀ s : List ℝ,
      negative_log_likelihood
          (graphs.set k (insert (i, i) (graphs.get ⟨k, hk⟩))) pa rs s
        = negative_log_likelihood graphs pa rs s - Real.logb 10 (1/2)) ∧
    (∀ n : ℕ,
      minimizers (negative_log_likelihood
          (graphs.set k (insert (i, i) (graphs.get ⟨k, hk⟩))) pa rs) n
        = minimizers (negative_log_likelihood graphs pa rs) n) := by
  have hshift : ∀ s : List ℝ,
      negative_log_likelihood
          (graphs.set k (insert (i, i) (graphs.get ⟨k, hk⟩))) pa rs s
        = negative_log_likelihood graphs pa rs s - Real.logb 10 (1/2) := by
    intro s
    have hkm : k < (graphs.map (fun g => g.sum (edgeTerm pa s))).length := by
      rw [List.length_map]; exact hk
    have hLL : logLikelihood (graphs.set k (insert (i, i) (graphs.get ⟨k, hk⟩))) pa s
        = logLikelihood graphs pa s + Real.logb 10 (1/2) := by
      unfold logLikelihood
      rw [List.map_set, list_sum_set _ k _ hkm, Finset.sum_insert hnm, edgeTerm_self]
      have hgd : (graphs.map (fun g => g.sum (edgeTerm pa s))).getD k 0
          = (graphs.get ⟨k, hk⟩).sum (edgeTerm pa s) := by
        rw [List.getD_eq_getElem _ _ hkm, List.getElem_map, List.get_eq_getElem]
      rw [hgd]
      ring
    unfold negative_log_likelihood
    rw [hLL]
    ring
  refine ⟨hshift, ?_⟩
  intro n
  unfold minimizers
  ext s
  simp only [Set.mem_setOf_eq]
  constructor
  · rintro ⟨hl, hmin⟩
    refine ⟨hl, fun t ht => ?_⟩
    have h2 := hmin t ht
    rw [hshift s, hshift t] at h2
    linarith
  · rintro ⟨hl, hmin⟩
    refine ⟨hl, fun t ht => ?_⟩
    have h2 := hmin t ht
    rw [hshift s, hshift t]
    linarith

/-- C10 witness: the theorem applied to `[{(1, 0)}]`, inserting the
self-loop `(0, 0)`, evaluated at the vector `[0, 0]` and dimension 2. -/
theorem c10_witness :
    (((0 : ℤ), (0 : ℤ)) ∉ (([{((1 : ℤ), (0 : ℤ))}] : List (Finset (ℤ × ℤ))).get
      ⟨0, by norm_num⟩)) ∧
    negative_log_likelihood
        (([{((1 : ℤ), (0 : ℤ))}] : List (Finset (ℤ × ℤ))).set 0
          (insert ((0 : ℤ), (0 : ℤ))
            (([{((1 : ℤ), (0 : ℤ))}] : List (Finset (ℤ × ℤ))).get ⟨0, by norm_num⟩)))
        (9/10) (1/2) [(0 : ℝ), 0]
      = negative_log_likelihood [{((1 : ℤ), (0 : ℤ))}] (9/10) (1/2) [(0 : ℝ), 0]
        - Real.logb 10 (1/2) ∧
    minimizers (negative_log_likelihood
        (([{((1 : ℤ), (0 : ℤ))}] : List (Finset (ℤ × ℤ))).set 0
          (insert ((0 : ℤ), (0 : ℤ))
            (([{((1 : ℤ), (0 : ℤ))}] : List (Finset (ℤ × ℤ))).get ⟨0, by norm_num⟩)))
        (9/10) (1/2)) 2
      = minimizers (negative_log_likelihood [{((1 : ℤ), (0 : ℤ))}] (9/10) (1/2)) 2 :=
  ⟨by decide,
    (c10_self_loop_constant_shift [{((1 : ℤ), (0 : ℤ))}] 0 (by norm_num) 0 (9/10) (1/2)
      (by decide)).1 [(0 : ℝ), 0],
    (c10_self_loop_constant_shift [{((1 : ℤ), (0 : ℤ))}] 0 (by norm_num) 0 (9/10) (1/2)
      (by decide)).2 2⟩

end CrowdBT

namespace CrowdBT

/-! ### Claim C2 -/

theorem regTerm_repr (x : ℝ) :
    regTerm x = ((x - 1) - 2 * Real.log (1 + Real.exp (x - 1))) / Real.log 10 := by
  have he1 : Real.exp 1 ≠ 0 := Real.exp_ne_zero 1
  have hex : Real.exp x ≠ 0 := Real.exp_ne_zero x
  have hsum : (0 : ℝ) < Real.exp 1 + Real.exp x := by positivity
  have hsum2 : (0 : ℝ) < Real.exp x + Real.exp 1 := by positivity
  have hone : (0 : ℝ) < 1 + Real.exp (x - 1) := by positivity
  unfold regTerm bt
  rw [Real.logb, Real.logb]
  rw [Real.log_div he1 (ne_of_gt hsum), Real.log_div hex (ne_of_gt hsum2)]
  rw [Real.log_exp, Real.log_exp]
  have hfac : Real.exp 1 + Real.exp x = Real.exp 1 * (1 + Real.exp (x - 1)) := by
    have hx1 : (1 : ℝ) + (x - 1) = x := by ring
    rw [mul_add, mul_one, ← Real.exp_add, hx1]
  have hcomm : Real.exp x + Real.exp 1 = Real.exp 1 + Real.exp x := add_comm _ _
  rw [hcomm, hfac, Real.log_mul he1 (ne_of_gt hone), Real.log_exp]
  rw [div_add_div_same]
  congr 1
  ring

theorem psi_abs (z : ℝ) :
    (z - 1) - 2 * Real.log (1 + Real.exp (z - 1))
      = |z - 1| - 2 * Real.log (1 + Real.exp |z - 1|) := by
  rcases le_or_lt 0 (z - 1) with h | h
  · rw [abs_of_nonneg h]
  · rw [abs_of_neg h]
    have hfac : 1 + Real.exp (-(z - 1))
        = Real.exp (-(z - 1)) * (1 + Real.exp (z - 1)) := by
      rw [mul_add, mul_one, ← Real.exp_add]
      have hz : -(z - 1) + (z - 1) = 0 := by ring
      rw [hz, Real.exp_zero]
      ring
    rw [hfac, Real.log_mul (Real.exp_ne_zero _) (by positivity), Real.log_exp]
    ring

theorem psi_anti {u v : ℝ} (hu : 0 ≤ u) (huv : u < v) :
    v - 2 * Real.log (1 + Real.exp v) < u - 2 * Real.log (1 + Real.exp u) := by
  have ha1 : 1 ≤ Real.exp u := by
    rw [← Real.exp_zero]
    exact Real.exp_le_exp.mpr hu
  have hab : Real.exp u < Real.exp v := Real.exp_lt_exp.mpr huv
  have ha0 : 0 < Real.exp u := Real.exp_pos u
  have hb0 : 0 < Real.exp v := Real.exp_pos v
  have h1ab : 1 < Real.exp u * Real.exp v := by nlinarith
  have hkey : Real.exp v * (1 + Real.exp u) ^ 2
      < Real.exp u * (1 + Real.exp v) ^ 2 := by
    nlinarith [mul_pos (sub_pos.mpr hab) (sub_pos.mpr h1ab)]
  have h2 : Real.log (Real.exp v * (1 + Real.exp u) ^ 2)
      < Real.log (Real.exp u * (1 + Real.exp v) ^ 2) :=
    Real.log_lt_log (by positivity) hkey
  rw [Real.log_mul (ne_of_gt hb0) (by positivity),
    Real.log_mul (ne_of_gt ha0) (by positivity),
    Real.log_pow, Real.log_pow, Real.log_exp, Real.log_exp] at h2
  push_cast at h2
  linarith

/-- C2 counterexample: the claim places the maximum of the per-object
regularization contribution at `s_i = 0`, but the code anchors the
virtual object at the constant `1.0` in log-space (`s_vo = 1.0` is fed
straight into `bt`, which exponentiates), so the contribution at 1 beats
the contribution at 0. -/
theorem c2_counterexample : regTerm 0 < regTerm 1 := by
  rw [regTerm_repr 0, regTerm_repr 1, psi_abs 0, psi_abs 1]
  have h0 : |(0 : ℝ) - 1| = 1 := by norm_num
  have h1 : |(1 : ℝ) - 1| = 0 := by norm_num
  rw [h0, h1]
  exact div_lt_div_of_pos_right (psi_anti (le_refl 0) one_pos)
    (Real.log_pos (by norm_num))

/-- C2 amended: the per-object regularization contribution
`log10(bt(1.0, s_i)) + log10(bt(s_i, 1.0))` (the code's virtual anchor
constant is 1.0 in log-space, raw score e) is maximized exactly at
`s_i = 1` and strictly decreases as `|s_i - 1|` grows. -/
theorem c2_reg_peak_at_one :
    (∀ x : ℝ, x ≠ 1 → regTerm x < regTerm 1) ∧
    (∀ x y : ℝ, |x - 1| < |y - 1| → regTerm y < regTerm x) := by
  have part2 : ∀ x y : ℝ, |x - 1| < |y - 1| → regTerm y < regTerm x := by
    intro x y h
    rw [regTerm_repr x, regTerm_repr y, psi_abs x, psi_abs y]
    exact div_lt_div_of_pos_right (psi_anti (abs_nonneg _) h)
      (Real.log_pos (by norm_num))
  refine ⟨?_, part2⟩
  intro x hx
  apply part2 1 x
  simp only [sub_self, abs_zero]
  exact abs_pos.mpr (sub_ne_zero.mpr hx)

/-- C2 witness: the amended theorem applied at `x = 2` (maximality) and
at the pair `(1, 3)` (strict decrease in `|s_i - 1|`). -/
theorem c2_witness :
    ((2 : ℝ) ≠ 1 ∧ regTerm 2 < regTerm 1) ∧
    (|(1 : ℝ) - 1| < |(3 : ℝ) - 1| ∧ regTerm 3 < regTerm 1) :=
  ⟨⟨by norm_num, c2_reg_peak_at_one.1 2 (by norm_num)⟩,
    ⟨by norm_num, c2_reg_peak_at_one.2 1 3 (by norm_num)⟩⟩

end CrowdBT

namespace CrowdBT

/-! ### Claim C9 -/

theorem sum_map_sub_div (l : List ℝ) (m sd : ℝ) :
    (l.map (fun x => (x - m) / sd)).sum = (l.sum - l.length * m) / sd := by
  induction l with
  | nil => simp
  | cons x t ih =>
    rw [List.map_cons, List.sum_cons, ih, div_add_div_same, List.sum_cons,
      List.length_cons]
    congr 1
    push_cast
    ring

theorem sum_map_sq_div (l : List ℝ) (m sd : ℝ) :
    (l.map (fun x => ((x - m) / sd) ^ 2)).sum
      = (l.map (fun x => (x - m) ^ 2)).sum / sd ^ 2 := by
  induction l with
  | nil => simp
  | cons x t ih =>
    rw [List.map_cons, List.sum_cons, ih, List.map_cons, List.sum_cons,
      div_pow, div_add_div_same]

theorem lstd_nil_ne {l : List ℝ} (hσ : lstd l ≠ 0) : l ≠ [] := by
  intro h
  apply hσ
  rw [h]
  unfold lstd
  simp

theorem zscore_mean {l : List ℝ} (hσ : lstd l ≠ 0) : lmean (zscore l) = 0 := by
  have hne : l ≠ [] := lstd_nil_ne hσ
  have hn0 : (l.length : ℝ) ≠ 0 :=
    Nat.cast_ne_zero.mpr (fun h => hne (List.length_eq_zero.mp h))
  show (zscore l).sum / ((zscore l).length : ℝ) = 0
  rw [zscore, sum_map_sub_div, List.length_map]
  have hz : l.sum - (l.length : ℝ) * lmean l = 0 := by
    rw [lmean]
    field_simp
  rw [hz, zero_div, zero_div]

theorem zscore_std {l : List ℝ} (hσ : lstd l ≠ 0) : lstd (zscore l) = 1 := by
  have hne : l ≠ [] := lstd_nil_ne hσ
  have hn0 : (l.length : ℝ) ≠ 0 :=
    Nat.cast_ne_zero.mpr (fun h => hne (List.length_eq_zero.mp h))
  have hμ : lmean (zscore l) = 0 := zscore_mean hσ
  have hS0 : (0 : ℝ) ≤ (l.map (fun x => (x - lmean l) ^ 2)).sum := by
    apply List.sum_nonneg
    intro x hx
    rcases List.mem_map.mp hx with ⟨y, -, hy⟩
    rw [← hy]
    positivity
  have hσsq : lstd l ^ 2 = (l.map (fun x => (x - lmean l) ^ 2)).sum / l.length := by
    unfold lstd
    exact Real.sq_sqrt (div_nonneg hS0 (Nat.cast_nonneg _))
  have hSn0 : (l.map (fun x => (x - lmean l) ^ 2)).sum ≠ 0 := by
    intro h
    apply hσ
    unfold lstd
    rw [h, zero_div, Real.sqrt_zero]
  show Real.sqrt (((zscore l).map
      (fun x => (x - lmean (zscore l)) ^ 2)).sum / ((zscore l).length : ℝ)) = 1
  rw [hμ]
  simp only [sub_zero]
  rw [zscore, List.map_map, List.length_map]
  have hcomp : ((fun x : ℝ => x ^ 2) ∘ fun x => (x - lmean l) / lstd l)
      = fun x => ((x - lmean l) / lstd l) ^ 2 := rfl
  rw [hcomp, sum_map_sq_div, hσsq]
  have hdiv : (l.map (fun x => (x - lmean l) ^ 2)).sum
      / ((l.map (fun x => (x - lmean l) ^ 2)).sum / (l.length : ℝ))
      / (l.length : ℝ) = 1 := by
    field_simp
  rw [hdiv, Real.sqrt_one]

theorem lmean_pair (a b : ℝ) : lmean [a, b] = (a + b) / 2 := by
  unfold lmean
  simp

theorem lstd_one_two : lstd [(1 : ℝ), 2] = 1 / 2 := by
  unfold lstd
  rw [lmean_pair]
  have harg : (([(1 : ℝ), 2].map
      (fun x => (x - (1 + 2) / 2) ^ 2)).sum / (([(1 : ℝ), 2].length : ℕ) : ℝ))
      = (1 / 4 : ℝ) := by
    simp
    norm_num
  rw [harg, show (1 / 4 : ℝ) = (1 / 2) ^ 2 by norm_num,
    Real.sqrt_sq (by norm_num)]

theorem zscore_exp_exp : zscore [Real.exp 1, Real.exp 1] = [0, 0] := by
  have hm : lmean [Real.exp 1, Real.exp 1] = Real.exp 1 := by
    rw [lmean_pair]
    ring
  rw [zscore, hm]
  simp

theorem lstd_zero_zero : lstd [(0 : ℝ), 0] = 0 := by
  unfold lstd
  rw [lmean_pair]
  norm_num

/-- C9 counterexample: the claim promises sample standard deviation 1 for
every corpus with N > 1, but when the optimizer output is constant (as
happens on symmetric corpora) the raw scores tie, the z-score transform
degenerates, and the standard deviation of the returned sequence is 0,
not 1 (Python produces `nan` here; in the real-number model the junk
division by the zero deviation yields 0). -/
theorem c9_counterexample :
    estimate_bt_scores idMin [{((1 : ℤ), (0 : ℤ))}] true (9/10) (1/2)
      = some [0, 0] ∧ lstd [(0 : ℝ), 0] ≠ 1 := by
  constructor
  · rw [estimate_scores_eq idMin true (9/10) (1/2) num_vertices_g0 validEdges_g0]
    have hraw : (idMin (negative_log_likelihood [{((1 : ℤ), (0 : ℤ))}] (9/10) (1/2))
        (initial_guess ((2 : ℤ)).toNat)).map Real.exp = [Real.exp 1, Real.exp 1] := by
      simp [idMin, initial_guess, List.replicate]
    rw [if_pos rfl, hraw, zscore_exp_exp]
  · rw [lstd_zero_zero]
    norm_num

/-- C9 amended: with standardization requested the pipeline returns
exactly the z-score transform of the raw exponentiated scores, and
whenever those raw scores are not all equal (nonzero population standard
deviation) the result has sample mean 0 and sample standard deviation 1;
with standardization off the raw exponentiated scores are returned
unchanged. -/
theorem c9_zscore_amended (minimize : (List ℝ → ℝ) → List ℝ → List ℝ)
    (graphs : List (Finset (ℤ × ℤ))) (pa rs : ℝ) {nv : ℤ} (raw : List ℝ)
    (hn : num_vertices graphs = some nv)
    (hv : validEdges graphs nv.toNat)
    (hraw : raw = (minimize (negative_log_likelihood graphs pa rs)
      (initial_guess nv.toNat)).map Real.exp)
    (hσ : lstd raw ≠ 0) :
    estimate_bt_scores minimize graphs true pa rs = some (zscore raw) ∧
    lmean (zscore raw) = 0 ∧ lstd (zscore raw) = 1 ∧
    estimate_bt_scores minimize graphs false pa rs = some raw := by
  refine ⟨?_, zscore_mean hσ, zscore_std hσ, ?_⟩
  · rw [estimate_scores_eq minimize true pa rs hn hv, hraw]
    simp
  · rw [estimate_scores_eq minimize false pa rs hn hv, hraw]
    simp

/-- C9 witness: the amended theorem applied to the corpus `[{(1, 0)}]`
with the stand-in optimizer `cMin` (raw scores `[1, 2]`). -/
theorem c9_witness :
    num_vertices [{((1 : ℤ), (0 : ℤ))}] = some 2 ∧
    validEdges [{((1 : ℤ), (0 : ℤ))}] ((2 : ℤ)).toNat ∧
    lstd [(1 : ℝ), 2] ≠ 0 ∧
    (estimate_bt_scores cMin [{((1 : ℤ), (0 : ℤ))}] true (9/10) (1/2)
        = some (zscore [(1 : ℝ), 2]) ∧
      lmean (zscore [(1 : ℝ), 2]) = 0 ∧ lstd (zscore [(1 : ℝ), 2]) = 1 ∧
      estimate_bt_scores cMin [{((1 : ℤ), (0 : ℤ))}] false (9/10) (1/2)
        = some [(1 : ℝ), 2]) := by
  have hσ12 : lstd [(1 : ℝ), 2] ≠ 0 := by
    rw [lstd_one_two]
    norm_num
  refine ⟨num_vertices_g0, validEdges_g0, hσ12, ?_⟩
  exact c9_zscore_amended cMin [{((1 : ℤ), (0 : ℤ))}] (9/10) (1/2) [(1 : ℝ), 2]
    num_vertices_g0 validEdges_g0
    (by simp [cMin, Real.exp_zero, Real.exp_log two_pos]) hσ12

end CrowdBT
